import Mathlib

/-
Verification of the pagination-aware multi-table collection and merge
pipeline of the March-Madness-Bayesian-Predictor repository.

The development shallowly embeds the two collection scripts:
  * src/src/data_collection_updated.py (class NCAADataCollector), and
  * src/data_collection.py and src/src/data_collection.py (the legacy
    script; the two copies of get_data, get_subsequent_links and get_df
    are textually identical, and src/src/data_collection.py additionally
    defines get_full_data and the all_stats list).

External effects are abstracted: an Env maps a URL to the markup the
page fetcher would return (none models a fetch error).  Markup records
what the scripts query from BeautifulSoup: the href attributes of the
anchor tags, and the outcome of find followed by pd.read_html on the
first table (none models no table on the page, Parsed.err models a
parse exception).  DataFrames are embedded as a Table: a list of column
names and a list of rows, each row a list of cells; pandas NaN is the
cell Cell.nan.  Exceptions that the Python code does not catch are
modelled by Option-valued functions returning none.
-/

/-- A cell of a dataframe: NaN, a string value, or a numeric value. -/
inductive Cell where
  | nan : Cell
  | s (v : String) : Cell
  | n (v : Int) : Cell
deriving DecidableEq, Repr

/-- A dataframe: ordered column names and rows of cells.  A row is
aligned positionally with the column list. -/
structure Table where
  cols : List String
  rows : List (List Cell)
deriving DecidableEq, Repr

/-- Outcome of pd.read_html on the first table of a page: a parsed
table or a parse exception. -/
inductive Parsed where
  | ok (t : Table) : Parsed
  | err : Parsed
deriving DecidableEq

/-- The parts of a fetched page that the scripts query: the href
attribute of every anchor tag (none when the tag has no href), and the
result of locating and parsing the first table (none when the page has
no table element, some Parsed.err when pd.read_html raises). -/
structure Markup where
  anchors : List (Option String)
  tbl : Option Parsed
deriving DecidableEq

/-- The external page fetcher: none models a request error. -/
structure Env where
  fetch : String → Option Markup

def Table.empty : Table := ⟨[], []⟩

/-- Value of the column named c in a row, walking the column list and
the row together; Cell.nan when the column is missing or the row is
short.  Models positional dataframe access by column label (first
occurrence of the label). -/
def cellAt : List String → List Cell → String → Cell
  | [], _, _ => Cell.nan
  | _ :: _, [], _ => Cell.nan
  | c0 :: cs, x :: xs, c => if c0 = c then x else cellAt cs xs c

/-- The Team cell of every row, in row order. -/
def teamCells (t : Table) : List Cell :=
  t.rows.map (fun r => cellAt t.cols r "Team")

/-- Value of column c in the first row whose Team cell is the string k;
none when no row has that team. -/
def getVal (t : Table) (k c : String) : Option Cell :=
  (t.rows.find? (fun r => decide (cellAt t.cols r "Team" = Cell.s k))).map
    (fun r => cellAt t.cols r c)

/-- Well-formedness: every row has exactly one cell per column. -/
def WfT (t : Table) : Prop := ∀ r ∈ t.rows, r.length = t.cols.length

instance (t : Table) : Decidable (WfT t) := by
  unfold WfT; infer_instance

/-- True exactly on string cells. -/
def isStrCell : Cell → Bool
  | Cell.s _ => true
  | _ => false

/-- First-seen-order deduplication with an accumulator of already seen
elements; models the seen-set loop of the updated link discoverer. -/
def dedupFirstAux {α : Type} [DecidableEq α] (seen : List α) : List α → List α
  | [] => []
  | x :: xs =>
    if x ∈ seen then dedupFirstAux seen xs
    else x :: dedupFirstAux (x :: seen) xs

def dedupFirst {α : Type} [DecidableEq α] (l : List α) : List α :=
  dedupFirstAux [] l

/-- Character-list test: p is an initial segment of s. -/
def listPre : List Char → List Char → Bool
  | [], _ => true
  | _ :: _, [] => false
  | a :: as, b :: bs => decide (a = b) && listPre as bs

/-- Character-list test: pat occurs contiguously inside l. -/
def listInf (pat : List Char) : List Char → Bool
  | [] => pat.isEmpty
  | b :: bs => listPre pat (b :: bs) || listInf pat bs

/-- The regex re.compile with pattern stats used by the legacy
get_subsequent_links: search succeeds iff the word stats occurs in the
href. -/
def hasStats (h : String) : Bool := listInf "stats".data h.data

/-- The anchored regex of the updated _get_subsequent_links, built by
embedding the base url into the pattern: the href starts with the base
url and the word stats occurs at or after the end of that base.  The
dots of the base url are treated as literal characters. -/
def matchesStatsRe (base h : String) : Bool :=
  listPre base.data h.data && listInf "stats".data (h.data.drop base.data.length)

/-- pandas fillna(0): NaN becomes the integer zero, other cells are
unchanged. -/
def fillCell : Cell → Cell
  | Cell.nan => Cell.n 0
  | c => c

def fillna0 (t : Table) : Table :=
  ⟨t.cols, t.rows.map (fun r => r.map fillCell)⟩

/-- pandas astype(str) on a single cell: strings unchanged, numbers
printed in decimal, NaN printed as the string nan.  No whitespace is
trimmed. -/
def cellToStr : Cell → Cell
  | Cell.s v => Cell.s v
  | Cell.n v => Cell.s (toString v)
  | Cell.nan => Cell.s "nan"

/-- Apply f to the cell of the first column named name, walking the
column list and the row together. -/
def applyAt : List String → String → (Cell → Cell) → List Cell → List Cell
  | [], _, _, r => r
  | _ :: _, _, _, [] => []
  | c0 :: cs, name, f, x :: xs =>
    if c0 = name then f x :: xs else x :: applyAt cs name f xs

/-- The column assignment d.Team = d.Team.astype(str) applied to a
whole table. -/
def astypeTeamStr (t : Table) : Table :=
  ⟨t.cols, t.rows.map (fun r => applyAt t.cols "Team" cellToStr r)⟩

/-- Column order of pd.concat on frames with possibly different
columns: union of the column lists in order of first appearance. -/
def unionCols (ts : List Table) : List String :=
  dedupFirst (ts.flatMap Table.cols)

/-- pd.concat(list, ignore_index=True): rows of every frame in order,
each reindexed to the union columns, with NaN where a frame lacks a
column. -/
def pdConcatNE (ts : List Table) : Table :=
  let cs := unionCols ts
  ⟨cs, ts.flatMap (fun t => t.rows.map (fun r => cs.map (fun c => cellAt t.cols r c)))⟩

/-- pd.concat raises a ValueError on an empty list of frames; none
models that exception. -/
def pdConcat (ts : List Table) : Option Table :=
  if ts.isEmpty then none else some (pdConcatNE ts)

/-- Keep the cells of the columns selected by keep, walking columns and
row together. -/
def projRow (keep : String → Bool) : List String → List Cell → List Cell
  | [], _ => []
  | _ :: _, [] => []
  | c :: cs, x :: xs =>
    if keep c then x :: projRow keep cs xs else projRow keep cs xs

/-- d.drop(columns=bad): remove every column whose name is in bad. -/
def dropCols (t : Table) (bad : List String) : Table :=
  let keep : String → Bool := fun c => decide (c ∉ bad)
  ⟨t.cols.filter keep, t.rows.map (fun r => projRow keep t.cols r)⟩

/-- The non-key columns the right frame contributes to a merge on
Team. -/
def mergeRC (b : Table) : List String :=
  b.cols.filter (fun c => decide (c ≠ "Team"))

/-- The rows of b whose Team cell equals tc, in row order. -/
def matchRows (b : Table) (tc : Cell) : List (List Cell) :=
  b.rows.filter (fun rr => decide (cellAt b.cols rr "Team" = tc))

/-- The merged rows produced from one row of the left frame: one row
per matching right row, or a single NaN-extended row when the right
frame has no match. -/
def expandRow (acols : List String) (b : Table) (lr : List Cell) : List (List Cell) :=
  match matchRows b (cellAt acols lr "Team") with
  | [] => [lr ++ (mergeRC b).map (fun _ => Cell.nan)]
  | ms => ms.map (fun rr => lr ++ (mergeRC b).map (fun c => cellAt b.cols rr c))

/-- The merged rows produced from the right rows whose Team matches no
left row: the Team cell is placed at the position of the Team column of
the left frame, all other left columns are NaN. -/
def rightOnlyRows (a b : Table) : List (List Cell) :=
  (b.rows.filter (fun rr =>
      !(a.rows.any (fun lr =>
        decide (cellAt b.cols rr "Team" = cellAt a.cols lr "Team"))))).map
    (fun rr =>
      a.cols.map (fun c => if c = "Team" then cellAt b.cols rr "Team" else Cell.nan)
        ++ (mergeRC b).map (fun c => cellAt b.cols rr c))

/-- pd.merge(a, b, on=Team, how=outer): columns are the columns of a
followed by the non-Team columns of b; every row of a is paired with
each row of b having an equal Team cell (NaN-extended when b has no
match), and the rows of b whose Team matches no row of a are appended,
NaN-extended on the columns of a. -/
def pdMergeOuter (a b : Table) : Table :=
  ⟨a.cols ++ mergeRC b, a.rows.flatMap (expandRow a.cols b) ++ rightOnlyRows a b⟩

/-- One step of the master merge loop shared by get_full_stat_dataframe
(lines 122 to 126 of data_collection_updated.py) and get_full_data
(lines 77 to 82 of src/src/data_collection.py): drop from the incoming
frame every column other than Team already present in the master, then
outer-merge on Team. -/
def dupColsOf (m df : Table) : List String :=
  df.cols.filter (fun c => decide (c ∈ m.cols ∧ c ≠ "Team"))

def mergeStep (m df : Table) : Table :=
  pdMergeOuter m (dropCols df (dupColsOf m df))

/-- The invariants carried by the accumulating master frame: rows
aligned with columns, duplicate-free columns containing Team, and
duplicate-free string-valued Team cells. -/
def MInv (t : Table) : Prop :=
  WfT t ∧ t.cols.Nodup ∧ "Team" ∈ t.cols ∧ (teamCells t).Nodup ∧
    ∀ tc ∈ teamCells t, isStrCell tc = true

/-- Lines 114 to 129 of data_collection_updated.py: an empty collection
yields an empty frame; otherwise the first frame seeds the master, the
remaining frames are merged in order, and NaN is filled with zero after
all merges. -/
def mergeMaster (dfs : List Table) : Table :=
  match dfs with
  | [] => Table.empty
  | first :: rest => fillna0 (rest.foldl mergeStep first)

/-- Base url of the site, the default of the legacy
get_subsequent_links and the base_url attribute of NCAADataCollector. -/
def ncaaBase : String := "https://www.ncaa.com"

/-- Start url of the statistics category with the given id. -/
def statTeamUrl (id : String) : String :=
  ncaaBase ++ "/stats/basketball-men/d1/current/team/" ++ id

/-- NCAADataCollector.get_team_stats_data: none when the fetch fails,
when the page has no table, or when pd.read_html raises; the parsed
table otherwise. -/
def get_team_stats_data (env : Env) (url : String) : Option Table :=
  match env.fetch url with
  | none => none
  | some soup =>
    match soup.tbl with
    | none => none
    | some Parsed.err => none
    | some (Parsed.ok df) => some df

/-- The filtered href list of NCAADataCollector._get_subsequent_links
before deduplication: anchors whose href matches the anchored stats
regex, is non-empty, and starts with the base url. -/
def rawStatLinks (soup : Markup) (base : String) : List String :=
  (soup.anchors.filterMap (fun o =>
    o.bind (fun h => if matchesStatsRe base h then some h else none))).filter
    (fun h => decide (h ≠ "") && listPre base.data h.data)

/-- NCAADataCollector._get_subsequent_links: the filtered hrefs,
deduplicated preserving first-seen order by the seen-set loop. -/
def getSubsequentLinksUpd (soup : Markup) (base : String) : List String :=
  dedupFirst (rawStatLinks soup base)

/-- Lines 94 to 98 of data_collection_updated.py: the discovered page
list of a category; the start url is inserted at the front when
discovery did not return it. -/
def categoryLinks (soup : Markup) (id : String) : List String :=
  let subs := getSubsequentLinksUpd soup (statTeamUrl id ++ "/")
  if statTeamUrl id ∈ subs then subs else statTeamUrl id :: subs

/-- Lines 100 to 107 of data_collection_updated.py: fetch and extract
every discovered page, keep the successes, and concatenate them; none
when no page yielded a table. -/
def collectPages (env : Env) (links : List String) : Option Table :=
  match links.filterMap (get_team_stats_data env) with
  | [] => none
  | d :: ds => some (pdConcatNE (d :: ds))

/-- One iteration of the stat_ids loop of get_full_stat_dataframe
(lines 85 to 112).  The outer none models the uncaught KeyError raised
on line 109 when the combined frame has no Team column; some none
models a category that is skipped (fetch failure on the start page, or
no page yielded a table); some (some t) is a collected category table
with its Team column coerced to strings. -/
def collectCategory (env : Env) (id : String) : Option (Option Table) :=
  match env.fetch (statTeamUrl id) with
  | none => some none
  | some soup =>
    match collectPages env (categoryLinks soup id) with
    | none => some none
    | some comb =>
      if "Team" ∈ comb.cols then some (some (astypeTeamStr comb)) else none

/-- NCAADataCollector.get_full_stat_dataframe: collect every category
in order, keep the categories that yielded data, and merge them; none
models an uncaught exception inside the loop. -/
def get_full_stat_dataframe (env : Env) (ids : List String) : Option Table :=
  (ids.mapM (collectCategory env)).map
    (fun cats => mergeMaster (cats.filterMap (fun c => c)))

/-- Legacy get_data (lines 12 to 19 of both copies of
data_collection.py): fetch, find the first table, parse it.  The
function has no error handling, so none models an exception
propagating to the caller (request error, AttributeError when find
returns None, or a pd.read_html error). -/
def get_data (env : Env) (url : String) : Option Table :=
  match env.fetch url with
  | none => none
  | some soup =>
    match soup.tbl with
    | none => none
    | some Parsed.err => none
    | some (Parsed.ok df) => some df

/-- Legacy get_subsequent_links: every href of an anchor tag that the
stats regex matches, non-empty, prefixed with the base url.  No
deduplication is performed. -/
def get_subsequent_links (soup : Markup) (base : String) : List String :=
  (soup.anchors.filterMap (fun o =>
    o.bind (fun h => if hasStats h then some h else none))).filter
    (fun h => decide (h ≠ "")) |>.map (fun h => base ++ h)

/-- Legacy get_df (lines 42 to 51): fetch the start page, discover the
links, drop the last one, fetch and parse each remaining link, and
concatenate.  Any page failure propagates as an exception (none), and
pd.concat on an empty list raises (none). -/
def get_df (env : Env) (url : String) : Option Table :=
  match env.fetch url with
  | none => none
  | some text =>
    match (get_subsequent_links text ncaaBase).dropLast.mapM (get_data env) with
    | none => none
    | some dfs => pdConcat dfs

/-- The module-level all_stats list of src/src/data_collection.py. -/
def all_stats : List String :=
  ["474", "216", "1284", "214", "1288", "1285", "148", "149", "286",
   "638", "150", "633", "151", "859", "857", "932", "146", "147",
   "145", "215", "625", "152", "518", "153", "519", "931", "217", "168"]

/-- One iteration of the first loop of legacy get_full_data (lines 57
to 66): build the category url from the id, run get_df, and coerce the
Team column to strings; a missing Team column raises a KeyError
(none). -/
def legacyCategory (env : Env) (num : String) : Option Table :=
  match get_df env (statTeamUrl num) with
  | none => none
  | some df =>
    if "Team" ∈ df.cols then some (astypeTeamStr df) else none

/-- The second loop of legacy get_full_data (lines 69 to 84): the Team
column of every frame is coerced to strings again, the first frame
seeds the master, and the rest are merged with the shared drop and
outer-merge step.  No fillna is applied inside the function. -/
def legacyMergeFold (dfs : List Table) : Option Table :=
  match dfs.map astypeTeamStr with
  | [] => none
  | first :: rest => some (rest.foldl mergeStep first)

/-- Legacy get_full_data (lines 54 to 84 of src/src/data_collection.py).
The urls parameter is declared but the loop on line 58 iterates the
module-level all_stats list, exactly as in the source. -/
def get_full_data (env : Env) (urls : List String) : Option Table :=
  match all_stats.mapM (legacyCategory env) with
  | none => none
  | some all_dfs => legacyMergeFold all_dfs

/-
Concrete tables, pages and environments used to evaluate the pipeline
at specific inputs.
-/

/-- Category table with columns Team and Pts, teams Duke and UNC. -/
def tblPts : Table :=
  ⟨["Team", "Pts"], [[Cell.s "Duke", Cell.n 80], [Cell.s "UNC", Cell.n 75]]⟩

/-- Category table with columns Team and Reb, teams Duke and Kansas. -/
def tblReb : Table :=
  ⟨["Team", "Reb"], [[Cell.s "Duke", Cell.n 30], [Cell.s "Kansas", Cell.n 28]]⟩

/-- One-row category table giving Duke 80 points. -/
def tblPtsA : Table := ⟨["Team", "Pts"], [[Cell.s "Duke", Cell.n 80]]⟩

/-- One-row category table giving Duke 99 points under the same column
name. -/
def tblPtsB : Table := ⟨["Team", "Pts"], [[Cell.s "Duke", Cell.n 99]]⟩

/-- Category table whose Team column repeats Duke on two rows. -/
def tblDupTeam : Table :=
  ⟨["Team", "Pts"], [[Cell.s "Duke", Cell.n 1], [Cell.s "Duke", Cell.n 2]]⟩

/-- Markup whose anchor list repeats the same stats href twice, as the
pagination widget of the site does. -/
def markDupLinks : Markup := ⟨[some "/stats/p2", some "/stats/p2"], none⟩

/-- A one-row table used as the content of a successfully parsed
page. -/
def tblX : Table := ⟨["Team"], [[Cell.s "X"]]⟩

/-- Start-page markup of a category whose anchors point at three stats
pages. -/
def soupThreeLinks : Markup :=
  ⟨[some "/stats/a", some "/stats/b", some "/stats/c"], none⟩

/-- Environment for the legacy collector: the start page links three
pages, page a parses to a table, page b has no table element, page c is
never fetched. -/
def envAbort : Env := ⟨fun u =>
  if u = "start4" then some soupThreeLinks
  else if u = ncaaBase ++ "/stats/a" then some ⟨[], some (Parsed.ok tblX)⟩
  else if u = ncaaBase ++ "/stats/b" then some ⟨[], none⟩
  else none⟩

/-- A one-row table with a Team column, the content of a single-page
category. -/
def tblY : Table := ⟨["Team"], [[Cell.s "Y"]]⟩

/-- Environment for the legacy collector: the start page holds a valid
table but its markup has no stats anchors at all. -/
def envNoLinks : Env :=
  ⟨fun u => if u = "start5" then some ⟨[], some (Parsed.ok tblY)⟩ else none⟩

/-- Markup of a single-page category for the updated collector: a
parsed table and no pagination anchors. -/
def soupSingle : Markup := ⟨[], some (Parsed.ok tblY)⟩

/-- Environment for the updated collector: only the start url of
category 1 resolves, to the single-page markup. -/
def envSingle : Env :=
  ⟨fun u => if u = statTeamUrl "1" then some soupSingle else none⟩

/-- Page table with columns Team and Pts. -/
def pageP1 : Table := ⟨["Team", "Pts"], [[Cell.s "A", Cell.n 1]]⟩

/-- Page table of the same category whose column set drifted to Team
and Reb. -/
def pageP2 : Table := ⟨["Team", "Reb"], [[Cell.s "B", Cell.n 2]]⟩

/-- Category table whose Team value carries surrounding whitespace. -/
def tblSpace : Table := ⟨["Team"], [[Cell.s " Duke"]]⟩

/-- Environment for the updated collector: category 2 resolves to a
single page whose Team cell is numeric. -/
def envNum : Env :=
  ⟨fun u => if u = statTeamUrl "2" then some ⟨[], some (Parsed.ok ⟨["Team"], [[Cell.n 5]]⟩)⟩
    else none⟩

/-
Helper lemmas about the embedded dataframe primitives.
-/

theorem cellAt_append_left (cols extra : List String) (r tail : List Cell) (c : String)
    (h : r.length = cols.length) (hc : c ∈ cols) :
    cellAt (cols ++ extra) (r ++ tail) c = cellAt cols r c := by
  induction cols generalizing r with
  | nil => cases hc
  | cons c0 cs ih =>
    cases r with
    | nil => simp at h
    | cons x xs =>
      simp only [List.cons_append, cellAt]
      by_cases hc0 : c0 = c
      · simp [hc0]
      · simp only [if_neg hc0]
        apply ih xs
        · simpa using h
        · cases List.mem_cons.mp hc with
          | inl h1 => exact absurd h1.symm hc0
          | inr h2 => exact h2

theorem cellAt_append_right (cols extra : List String) (r tail : List Cell) (c : String)
    (h : r.length = cols.length) (hc : c ∉ cols) :
    cellAt (cols ++ extra) (r ++ tail) c = cellAt extra tail c := by
  induction cols generalizing r with
  | nil =>
    cases r with
    | nil => rfl
    | cons x xs => simp at h
  | cons c0 cs ih =>
    cases r with
    | nil => simp at h
    | cons x xs =>
      simp only [List.cons_append, cellAt]
      have hne : c0 ≠ c := fun he => hc (he ▸ List.mem_cons_self c0 cs)
      simp only [if_neg hne]
      exact ih xs (by simpa using h) (fun hm => hc (List.mem_cons_of_mem c0 hm))

theorem cellAt_map_self (cols : List String) (f : String → Cell) (c : String)
    (hc : c ∈ cols) :
    cellAt cols (cols.map f) c = f c := by
  induction cols with
  | nil => cases hc
  | cons c0 cs ih =>
    simp only [List.map_cons, cellAt]
    by_cases hc0 : c0 = c
    · simp [hc0]
    · simp only [if_neg hc0]
      exact ih (by
        cases List.mem_cons.mp hc with
        | inl h1 => exact absurd h1.symm hc0
        | inr h2 => exact h2)

theorem cellAt_not_mem (cols : List String) (r : List Cell) (c : String)
    (hc : c ∉ cols) :
    cellAt cols r c = Cell.nan := by
  induction cols generalizing r with
  | nil => cases r <;> rfl
  | cons c0 cs ih =>
    cases r with
    | nil => rfl
    | cons x xs =>
      simp only [cellAt]
      have hne : c0 ≠ c := fun he => hc (he ▸ List.mem_cons_self c0 cs)
      simp only [if_neg hne]
      exact ih xs (fun hm => hc (List.mem_cons_of_mem c0 hm))

theorem cellAt_map_row (cols : List String) (r : List Cell) (f : Cell → Cell) (c : String)
    (h : r.length = cols.length) (hc : c ∈ cols) :
    cellAt cols (r.map f) c = f (cellAt cols r c) := by
  induction cols generalizing r with
  | nil => cases hc
  | cons c0 cs ih =>
    cases r with
    | nil => simp at h
    | cons x xs =>
      simp only [List.map_cons, cellAt]
      by_cases hc0 : c0 = c
      · simp [hc0]
      · simp only [if_neg hc0]
        apply ih xs
        · simpa using h
        · cases List.mem_cons.mp hc with
          | inl h1 => exact absurd h1.symm hc0
          | inr h2 => exact h2

theorem cellAt_proj (keep : String → Bool) (cols : List String) (r : List Cell) (c : String)
    (hk : keep c = true) :
    cellAt (cols.filter keep) (projRow keep cols r) c = cellAt cols r c := by
  induction cols generalizing r with
  | nil => cases r <;> rfl
  | cons c0 cs ih =>
    cases r with
    | nil =>
      simp only [projRow]
      rcases hf : List.filter keep (c0 :: cs) with _ | ⟨a, as⟩
      · rfl
      · rw [show cellAt (a :: as) [] c = Cell.nan from rfl]; rfl
    | cons x xs =>
      by_cases hk0 : keep c0
      · simp only [projRow, if_pos hk0, List.filter_cons_of_pos hk0, cellAt]
        by_cases hc0 : c0 = c
        · simp [hc0]
        · simp only [if_neg hc0]; exact ih xs
      · have hne : c0 ≠ c := by
          intro he; rw [he] at hk0; exact hk0 hk
        simp only [projRow, if_neg hk0, List.filter_cons_of_neg hk0, cellAt, if_neg hne]
        exact ih xs

theorem projRow_length (keep : String → Bool) (cols : List String) (r : List Cell)
    (h : r.length = cols.length) :
    (projRow keep cols r).length = (cols.filter keep).length := by
  induction cols generalizing r with
  | nil => cases r with
    | nil => rfl
    | cons x xs => simp at h
  | cons c0 cs ih =>
    cases r with
    | nil => simp at h
    | cons x xs =>
      by_cases hk0 : keep c0
      · simp only [projRow, if_pos hk0, List.filter_cons_of_pos hk0, List.length_cons]
        rw [ih xs (by simpa using h)]
      · simp only [projRow, if_neg hk0, List.filter_cons_of_neg hk0]
        exact ih xs (by simpa using h)

theorem cellAt_applyAt (cols : List String) (r : List Cell) (f : Cell → Cell) (nm : String)
    (h : r.length = cols.length) (hn : nm ∈ cols) :
    cellAt cols (applyAt cols nm f r) nm = f (cellAt cols r nm) := by
  induction cols generalizing r with
  | nil => cases hn
  | cons c0 cs ih =>
    cases r with
    | nil => simp at h
    | cons x xs =>
      simp only [applyAt, cellAt]
      by_cases hc0 : c0 = nm
      · simp [hc0, cellAt]
      · simp only [if_neg hc0, cellAt]
        apply ih xs
        · simpa using h
        · cases List.mem_cons.mp hn with
          | inl h1 => exact absurd h1.symm hc0
          | inr h2 => exact h2

theorem applyAt_length (cols : List String) (r : List Cell) (f : Cell → Cell) (nm : String) :
    (applyAt cols nm f r).length = r.length := by
  induction cols generalizing r with
  | nil => rfl
  | cons c0 cs ih =>
    cases r with
    | nil => rfl
    | cons x xs =>
      simp only [applyAt]
      by_cases hc0 : c0 = nm
      · simp [hc0]
      · simp only [if_neg hc0, List.length_cons, ih xs]

theorem map_cellAt_eq_self (cols : List String) (r : List Cell)
    (h : r.length = cols.length) (hnd : cols.Nodup) :
    cols.map (fun c => cellAt cols r c) = r := by
  induction cols generalizing r with
  | nil => cases r with
    | nil => rfl
    | cons x xs => simp at h
  | cons c0 cs ih =>
    cases r with
    | nil => simp at h
    | cons x xs =>
      have hhead : cellAt (c0 :: cs) (x :: xs) c0 = x := by simp [cellAt]
      have hstep : ∀ c ∈ cs, cellAt (c0 :: cs) (x :: xs) c = cellAt cs xs c := by
        intro c hcmem
        have hne : c0 ≠ c := by
          intro he
          exact (List.nodup_cons.mp hnd).1 (he ▸ hcmem)
        simp [cellAt, if_neg hne]
      have htail : cs.map (fun c => cellAt (c0 :: cs) (x :: xs) c) = xs :=
        calc cs.map (fun c => cellAt (c0 :: cs) (x :: xs) c)
            = cs.map (fun c => cellAt cs xs c) := List.map_congr_left hstep
          _ = xs := ih xs (by simpa using h) (List.nodup_cons.mp hnd).2
      simp only [List.map_cons]
      rw [List.cons.injEq]
      exact ⟨hhead, htail⟩

theorem mem_dedupFirstAux {α : Type} [DecidableEq α] (seen : List α) (l : List α) (x : α) :
    x ∈ dedupFirstAux seen l ↔ x ∈ l ∧ x ∉ seen := by
  induction l generalizing seen with
  | nil => simp [dedupFirstAux]
  | cons y ys ih =>
    by_cases hy : y ∈ seen
    · simp only [dedupFirstAux, if_pos hy, ih, List.mem_cons]
      constructor
      · rintro ⟨h1, h2⟩; exact ⟨Or.inr h1, h2⟩
      · rintro ⟨h1 | h1, h2⟩
        · exact absurd (h1 ▸ hy) h2
        · exact ⟨h1, h2⟩
    · simp only [dedupFirstAux, if_neg hy, List.mem_cons, ih]
      constructor
      · rintro (h1 | ⟨h1, h2⟩)
        · exact ⟨Or.inl h1, h1 ▸ hy⟩
        · exact ⟨Or.inr h1, fun hm => h2 (Or.inr hm)⟩
      · rintro ⟨h1 | h1, h2⟩
        · exact Or.inl h1
        · by_cases hxy : x = y
          · exact Or.inl hxy
          · refine Or.inr ⟨h1, fun hm => ?_⟩
            rcases hm with hm1 | hm1
            · exact hxy hm1
            · exact h2 hm1

theorem dedupFirstAux_nodup {α : Type} [DecidableEq α] (seen : List α) (l : List α) :
    (dedupFirstAux seen l).Nodup := by
  induction l generalizing seen with
  | nil => exact List.nodup_nil
  | cons y ys ih =>
    by_cases hy : y ∈ seen
    · simpa only [dedupFirstAux, if_pos hy] using ih seen
    · simp only [dedupFirstAux, if_neg hy, List.nodup_cons]
      refine ⟨fun hm => ?_, ih (y :: seen)⟩
      exact ((mem_dedupFirstAux (y :: seen) ys y).mp hm).2 (List.mem_cons_self y seen)

theorem dedupFirstAux_sublist {α : Type} [DecidableEq α] (seen : List α) (l : List α) :
    (dedupFirstAux seen l).Sublist l := by
  induction l generalizing seen with
  | nil => exact List.Sublist.refl []
  | cons y ys ih =>
    by_cases hy : y ∈ seen
    · simpa only [dedupFirstAux, if_pos hy] using List.Sublist.cons y (ih seen)
    · simpa only [dedupFirstAux, if_neg hy] using List.Sublist.cons₂ y (ih (y :: seen))

theorem dedupFirstAux_eq_self {α : Type} [DecidableEq α] (seen : List α) (l : List α)
    (hnd : l.Nodup) (hd : ∀ x ∈ l, x ∉ seen) :
    dedupFirstAux seen l = l := by
  induction l generalizing seen with
  | nil => rfl
  | cons y ys ih =>
    have hy : y ∉ seen := hd y (List.mem_cons_self y ys)
    simp only [dedupFirstAux, if_neg hy, List.cons.injEq, true_and]
    apply ih (y :: seen) (List.nodup_cons.mp hnd).2
    intro x hx
    simp only [List.mem_cons]
    rintro (h1 | h1)
    · exact (List.nodup_cons.mp hnd).1 (h1 ▸ hx)
    · exact hd x (List.mem_cons_of_mem y hx) h1

theorem dedupFirst_nodup {α : Type} [DecidableEq α] (l : List α) :
    (dedupFirst l).Nodup := dedupFirstAux_nodup [] l

theorem mem_dedupFirst {α : Type} [DecidableEq α] (l : List α) (x : α) :
    x ∈ dedupFirst l ↔ x ∈ l := by
  simp [dedupFirst, mem_dedupFirstAux]

theorem dedupFirst_sublist {α : Type} [DecidableEq α] (l : List α) :
    (dedupFirst l).Sublist l := dedupFirstAux_sublist [] l

theorem dedupFirst_eq_self {α : Type} [DecidableEq α] (l : List α) (hnd : l.Nodup) :
    dedupFirst l = l :=
  dedupFirstAux_eq_self [] l hnd (by simp)

theorem fillCell_ne_nan (c : Cell) : fillCell c ≠ Cell.nan := by
  cases c <;> simp [fillCell]

theorem fillCell_eq_s_iff (c : Cell) (k : String) :
    fillCell c = Cell.s k ↔ c = Cell.s k := by
  cases c <;> simp [fillCell]

theorem fillCell_of_isStr (c : Cell) (h : isStrCell c = true) : fillCell c = c := by
  cases c <;> simp_all [isStrCell, fillCell]

theorem cellToStr_isStr (c : Cell) : isStrCell (cellToStr c) = true := by
  cases c <;> rfl

theorem wfT_fillna0 (t : Table) (h : WfT t) : WfT (fillna0 t) := by
  intro r hr
  simp only [fillna0, List.mem_map] at hr
  obtain ⟨r0, hr0, rfl⟩ := hr
  simpa using h r0 hr0

theorem wfT_astypeTeamStr (t : Table) (h : WfT t) : WfT (astypeTeamStr t) := by
  intro r hr
  simp only [astypeTeamStr, List.mem_map] at hr
  obtain ⟨r0, hr0, rfl⟩ := hr
  rw [applyAt_length]
  exact h r0 hr0

theorem wfT_dropCols (t : Table) (bad : List String) (h : WfT t) :
    WfT (dropCols t bad) := by
  intro r hr
  simp only [dropCols, List.mem_map] at hr
  obtain ⟨r0, hr0, rfl⟩ := hr
  exact projRow_length _ t.cols r0 (h r0 hr0)

theorem wfT_pdConcatNE (ts : List Table) : WfT (pdConcatNE ts) := by
  intro r hr
  simp only [pdConcatNE, List.mem_flatMap, List.mem_map] at hr
  obtain ⟨t, _, r0, _, rfl⟩ := hr
  simp [pdConcatNE, List.length_map]

theorem teamCells_fillna0 (t : Table) (hw : WfT t) (ht : "Team" ∈ t.cols) :
    teamCells (fillna0 t) = (teamCells t).map fillCell := by
  simp only [teamCells, fillna0, List.map_map]
  apply List.map_congr_left
  intro r hr
  simp only [Function.comp_apply]
  exact cellAt_map_row t.cols r fillCell "Team" (hw r hr) ht

theorem teamCells_astypeTeamStr (t : Table) (hw : WfT t) (ht : "Team" ∈ t.cols) :
    teamCells (astypeTeamStr t) = (teamCells t).map cellToStr := by
  simp only [teamCells, astypeTeamStr, List.map_map]
  apply List.map_congr_left
  intro r hr
  simp only [Function.comp_apply]
  exact cellAt_applyAt t.cols r cellToStr "Team" (hw r hr) ht

theorem teamCells_dropCols (t : Table) (bad : List String) (hT : "Team" ∉ bad) :
    teamCells (dropCols t bad) = teamCells t := by
  simp only [teamCells, dropCols, List.map_map]
  apply List.map_congr_left
  intro r _
  simp only [Function.comp_apply]
  exact cellAt_proj _ t.cols r "Team" (by simpa using hT)

theorem find?_map_fill_rows (cols : List String) (rows : List (List Cell)) (k c : String)
    (hw : ∀ r ∈ rows, r.length = cols.length) (ht : "Team" ∈ cols) (hc : c ∈ cols) :
    ((rows.map (fun r => r.map fillCell)).find?
        (fun r => decide (cellAt cols r "Team" = Cell.s k))).map (fun r => cellAt cols r c)
      = ((rows.find? (fun r => decide (cellAt cols r "Team" = Cell.s k))).map
          (fun r => cellAt cols r c)).map fillCell := by
  induction rows with
  | nil => rfl
  | cons r rs ih =>
    have hwr : r.length = cols.length := hw r (List.mem_cons_self r rs)
    have hteam : cellAt cols (r.map fillCell) "Team" = fillCell (cellAt cols r "Team") :=
      cellAt_map_row cols r fillCell "Team" hwr ht
    by_cases hp : cellAt cols r "Team" = Cell.s k
    · rw [List.map_cons,
        List.find?_cons_of_pos _ (by simp [hteam, (fillCell_eq_s_iff _ k).mpr hp]),
        List.find?_cons_of_pos _ (by simp [hp])]
      simp only [Option.map_some']
      rw [cellAt_map_row cols r fillCell c hwr hc]
    · have hp2 : fillCell (cellAt cols r "Team") ≠ Cell.s k := by
        intro he; exact hp ((fillCell_eq_s_iff _ k).mp he)
      rw [List.map_cons,
        List.find?_cons_of_neg _ (by simp [hteam, hp2]),
        List.find?_cons_of_neg _ (by simp [hp])]
      exact ih (fun r2 hr2 => hw r2 (List.mem_cons_of_mem r hr2))

theorem getVal_fillna0 (t : Table) (k c : String)
    (hw : WfT t) (ht : "Team" ∈ t.cols) (hc : c ∈ t.cols) :
    getVal (fillna0 t) k c = (getVal t k c).map fillCell := by
  simp only [getVal, fillna0]
  exact find?_map_fill_rows t.cols t.rows k c hw ht hc

theorem mem_expandRow (acols : List String) (b : Table) (lr x : List Cell)
    (hx : x ∈ expandRow acols b lr) :
    ∃ tail, x = lr ++ tail ∧ tail.length = (mergeRC b).length := by
  unfold expandRow at hx
  rcases hm : matchRows b (cellAt acols lr "Team") with _ | ⟨m, ms⟩
  · rw [hm] at hx
    simp only [List.mem_singleton] at hx
    exact ⟨_, hx, by simp⟩
  · rw [hm] at hx
    simp only [List.mem_map] at hx
    obtain ⟨rr, _, rfl⟩ := hx
    exact ⟨_, rfl, by simp⟩

theorem expandRow_ne_nil (acols : List String) (b : Table) (lr : List Cell) :
    expandRow acols b lr ≠ [] := by
  unfold expandRow
  rcases hm : matchRows b (cellAt acols lr "Team") with _ | ⟨m, ms⟩
  · simp
  · simp

theorem teamOf_mem_expandRow (acols : List String) (b : Table) (lr x : List Cell)
    (hlr : lr.length = acols.length) (hT : "Team" ∈ acols)
    (hx : x ∈ expandRow acols b lr) :
    cellAt (acols ++ mergeRC b) x "Team" = cellAt acols lr "Team" := by
  obtain ⟨tail, rfl, _⟩ := mem_expandRow acols b lr x hx
  exact cellAt_append_left acols (mergeRC b) lr tail "Team" hlr hT

theorem cellAt_mem_expandRow (acols : List String) (b : Table) (lr x : List Cell)
    (c : String) (hlr : lr.length = acols.length) (hc : c ∈ acols)
    (hx : x ∈ expandRow acols b lr) :
    cellAt (acols ++ mergeRC b) x c = cellAt acols lr c := by
  obtain ⟨tail, rfl, _⟩ := mem_expandRow acols b lr x hx
  exact cellAt_append_left acols (mergeRC b) lr tail c hlr hc

theorem wfT_pdMergeOuter (a b : Table) (hw : WfT a) : WfT (pdMergeOuter a b) := by
  intro r hr
  simp only [pdMergeOuter, List.mem_append] at hr
  rcases hr with hr | hr
  · simp only [List.mem_flatMap] at hr
    obtain ⟨lr, hlr, hx⟩ := hr
    obtain ⟨tail, rfl, htl⟩ := mem_expandRow a.cols b lr r hx
    simp [pdMergeOuter, hw lr hlr, htl]
  · simp only [rightOnlyRows, List.mem_map] at hr
    obtain ⟨rr, _, rfl⟩ := hr
    simp [pdMergeOuter]

theorem find?_flatMap_expandRow (acols : List String) (b : Table)
    (rows : List (List Cell)) (k : String) (r0 : List Cell)
    (hw : ∀ r ∈ rows, r.length = acols.length) (hT : "Team" ∈ acols)
    (hf : rows.find? (fun r => decide (cellAt acols r "Team" = Cell.s k)) = some r0) :
    ∃ x, (rows.flatMap (expandRow acols b)).find?
        (fun r => decide (cellAt (acols ++ mergeRC b) r "Team" = Cell.s k)) = some x
      ∧ x ∈ expandRow acols b r0 := by
  induction rows with
  | nil => simp at hf
  | cons r rs ih =>
    have hwr : r.length = acols.length := hw r (List.mem_cons_self r rs)
    rw [List.flatMap_cons, List.find?_append]
    by_cases hp : cellAt acols r "Team" = Cell.s k
    · rw [List.find?_cons_of_pos _ (by simp [hp])] at hf
      have hr0 : r = r0 := by simpa using hf
      subst hr0
      rcases hne : expandRow acols b r with _ | ⟨x, xs⟩
      · exact absurd hne (expandRow_ne_nil acols b r)
      · have hxmem : x ∈ expandRow acols b r := by rw [hne]; exact List.mem_cons_self x xs
        have hteam : cellAt (acols ++ mergeRC b) x "Team" = Cell.s k := by
          rw [teamOf_mem_expandRow acols b r x hwr hT hxmem, hp]
        refine ⟨x, ?_, List.mem_cons_self x xs⟩
        rw [List.find?_cons_of_pos _ (by simp [hteam])]
        rfl
    · rw [List.find?_cons_of_neg _ (by simp [hp])] at hf
      have hnone : (expandRow acols b r).find?
          (fun x => decide (cellAt (acols ++ mergeRC b) x "Team" = Cell.s k)) = none := by
        apply List.find?_eq_none.mpr
        intro x hx
        simp only [decide_eq_true_eq]
        rw [teamOf_mem_expandRow acols b r x hwr hT hx]
        exact hp
      rw [hnone, Option.none_or]
      exact ih (fun r2 hr2 => hw r2 (List.mem_cons_of_mem r hr2)) hf

theorem getVal_pdMergeOuter_left (a b : Table) (k c : String) (v : Cell)
    (hw : WfT a) (hT : "Team" ∈ a.cols) (hc : c ∈ a.cols)
    (hv : getVal a k c = some v) :
    getVal (pdMergeOuter a b) k c = some v := by
  simp only [getVal] at hv
  rcases hfind : a.rows.find? (fun r => decide (cellAt a.cols r "Team" = Cell.s k)) with
    _ | r0
  · rw [hfind] at hv; simp at hv
  · rw [hfind] at hv
    simp only [Option.map_some'] at hv
    obtain ⟨x, hx, hxmem⟩ := find?_flatMap_expandRow a.cols b a.rows k r0 hw hT hfind
    have hwr0 : r0.length = a.cols.length := hw r0 (List.mem_of_find?_eq_some hfind)
    simp only [getVal, pdMergeOuter, List.find?_append, hx]
    have hor : (some x).or (List.find?
        (fun r => decide (cellAt (a.cols ++ mergeRC b) r "Team" = Cell.s k))
        (rightOnlyRows a b)) = some x := rfl
    rw [hor, Option.map_some']
    rw [cellAt_mem_expandRow a.cols b r0 x c hwr0 hc hxmem]
    exact hv

theorem mem_teamCells (t : Table) (tc : Cell) :
    tc ∈ teamCells t ↔ ∃ r ∈ t.rows, cellAt t.cols r "Team" = tc := by
  simp [teamCells, List.mem_map]

theorem teamOf_rightOnly_shape (a b : Table) (rr : List Cell) (hT : "Team" ∈ a.cols) :
    cellAt (a.cols ++ mergeRC b)
      (a.cols.map (fun c => if c = "Team" then cellAt b.cols rr "Team" else Cell.nan)
        ++ (mergeRC b).map (fun c => cellAt b.cols rr c)) "Team"
      = cellAt b.cols rr "Team" := by
  rw [cellAt_append_left a.cols (mergeRC b) _ _ "Team" (List.length_map a.cols _) hT,
    cellAt_map_self a.cols _ "Team" hT]
  simp

theorem mem_teamCells_pdMergeOuter_left (a b : Table) (tc : Cell)
    (hw : WfT a) (hT : "Team" ∈ a.cols) (htc : tc ∈ teamCells a) :
    tc ∈ teamCells (pdMergeOuter a b) := by
  obtain ⟨r, hr, hteam⟩ := (mem_teamCells a tc).mp htc
  obtain ⟨x, hx⟩ := List.exists_mem_of_ne_nil _ (expandRow_ne_nil a.cols b r)
  apply (mem_teamCells _ tc).mpr
  refine ⟨x, ?_, ?_⟩
  · simp only [pdMergeOuter, List.mem_append, List.mem_flatMap]
    exact Or.inl ⟨r, hr, hx⟩
  · rw [show (pdMergeOuter a b).cols = a.cols ++ mergeRC b from rfl]
    rw [teamOf_mem_expandRow a.cols b r x (hw r hr) hT hx]
    exact hteam

theorem mem_teamCells_pdMergeOuter_right (a b : Table) (tc : Cell)
    (hw : WfT a) (hT : "Team" ∈ a.cols) (htc : tc ∈ teamCells b) :
    tc ∈ teamCells (pdMergeOuter a b) := by
  obtain ⟨rr, hrr, hteam⟩ := (mem_teamCells b tc).mp htc
  by_cases hany : a.rows.any (fun lr =>
      decide (cellAt b.cols rr "Team" = cellAt a.cols lr "Team")) = true
  · obtain ⟨lr, hlr, hdec⟩ := List.any_eq_true.mp hany
    have : cellAt a.cols lr "Team" = tc := by
      rw [← (of_decide_eq_true hdec), hteam]
    exact mem_teamCells_pdMergeOuter_left a b tc hw hT
      ((mem_teamCells a tc).mpr ⟨lr, hlr, this⟩)
  · have hq : rr ∈ b.rows.filter (fun rr =>
        !(a.rows.any (fun lr =>
          decide (cellAt b.cols rr "Team" = cellAt a.cols lr "Team")))) := by
      rw [List.mem_filter]
      exact ⟨hrr, by simp [Bool.not_eq_true] at hany ⊢; exact hany⟩
    apply (mem_teamCells _ tc).mpr
    refine ⟨a.cols.map (fun c => if c = "Team" then cellAt b.cols rr "Team" else Cell.nan)
        ++ (mergeRC b).map (fun c => cellAt b.cols rr c), ?_, ?_⟩
    · simp only [pdMergeOuter, List.mem_append, rightOnlyRows, List.mem_map]
      exact Or.inr ⟨rr, hq, rfl⟩
    · rw [show (pdMergeOuter a b).cols = a.cols ++ mergeRC b from rfl]
      rw [teamOf_rightOnly_shape a b rr hT]
      exact hteam

theorem getVal_pdMergeOuter_left_nan (a b : Table) (k c : String)
    (hw : WfT a) (hT : "Team" ∈ a.cols) (hc1 : c ∉ a.cols) (hc2 : c ∈ mergeRC b)
    (hk : Cell.s k ∈ teamCells a) (hkb : Cell.s k ∉ teamCells b) :
    getVal (pdMergeOuter a b) k c = some Cell.nan := by
  obtain ⟨r1, hr1, hteam1⟩ := (mem_teamCells a (Cell.s k)).mp hk
  have hsome : (a.rows.find? (fun r =>
      decide (cellAt a.cols r "Team" = Cell.s k))).isSome := by
    rw [List.find?_isSome]
    exact ⟨r1, hr1, by simp [hteam1]⟩
  obtain ⟨r0, hfind⟩ := Option.isSome_iff_exists.mp hsome
  obtain ⟨x, hx, hxmem⟩ := find?_flatMap_expandRow a.cols b a.rows k r0 hw hT hfind
  have hp0' := List.find?_some hfind
  have hp0 : cellAt a.cols r0 "Team" = Cell.s k := of_decide_eq_true hp0'
  have hmatch : matchRows b (Cell.s k) = [] := by
    unfold matchRows
    apply List.filter_eq_nil_iff.mpr
    intro rr hrr
    simp only [decide_eq_true_eq]
    intro he
    exact hkb ((mem_teamCells b (Cell.s k)).mpr ⟨rr, hrr, he⟩)
  have hexp : expandRow a.cols b r0 = [r0 ++ (mergeRC b).map (fun _ => Cell.nan)] := by
    unfold expandRow
    rw [hp0, hmatch]
  rw [hexp] at hxmem
  simp only [List.mem_singleton] at hxmem
  have hwr0 : r0.length = a.cols.length := hw r0 (List.mem_of_find?_eq_some hfind)
  simp only [getVal, pdMergeOuter, List.find?_append, hx]
  have hor : (some x).or (List.find?
      (fun r => decide (cellAt (a.cols ++ mergeRC b) r "Team" = Cell.s k))
      (rightOnlyRows a b)) = some x := rfl
  rw [hor, Option.map_some', hxmem]
  rw [cellAt_append_right a.cols (mergeRC b) r0 _ c hwr0 hc1]
  rw [cellAt_map_self (mergeRC b) _ c hc2]

theorem filter_map_nodup_length_le_one {α β : Type} [DecidableEq β]
    (l : List α) (f : α → β) (v : β) (h : (l.map f).Nodup) :
    (l.filter (fun x => decide (f x = v))).length ≤ 1 := by
  induction l with
  | nil => simp
  | cons x xs ih =>
    rw [List.map_cons, List.nodup_cons] at h
    by_cases hv : f x = v
    · rw [List.filter_cons_of_pos (by simp [hv])]
      have hnil : xs.filter (fun y => decide (f y = v)) = [] := by
        apply List.filter_eq_nil_iff.mpr
        intro y hy
        simp only [decide_eq_true_eq]
        intro he
        exact h.1 (List.mem_map.mpr ⟨y, hy, he.trans hv.symm⟩)
      rw [hnil]
      simp
    · rw [List.filter_cons_of_neg (by simp [hv])]
      exact ih h.2

theorem expandRow_singleton (acols : List String) (b : Table) (lr : List Cell)
    (hnb : (teamCells b).Nodup) :
    ∃ tail, expandRow acols b lr = [lr ++ tail] := by
  unfold expandRow
  have hlen : (matchRows b (cellAt acols lr "Team")).length ≤ 1 := by
    unfold matchRows
    have := filter_map_nodup_length_le_one b.rows
      (fun rr => cellAt b.cols rr "Team") (cellAt acols lr "Team") hnb
    simpa using this
  rcases hm : matchRows b (cellAt acols lr "Team") with _ | ⟨m, ms⟩
  · exact ⟨_, rfl⟩
  · rw [hm] at hlen
    have hms : ms = [] := by
      cases ms with
      | nil => rfl
      | cons m2 ms2 => simp at hlen
    subst hms
    exact ⟨_, rfl⟩

theorem map_team_flatMap_expandRow (acols : List String) (b : Table)
    (rows : List (List Cell)) (hT : "Team" ∈ acols) (hnb : (teamCells b).Nodup)
    (hw : ∀ r ∈ rows, r.length = acols.length) :
    (rows.flatMap (expandRow acols b)).map
        (fun r => cellAt (acols ++ mergeRC b) r "Team")
      = rows.map (fun r => cellAt acols r "Team") := by
  induction rows with
  | nil => rfl
  | cons r rs ih =>
    have hwr : r.length = acols.length := hw r (List.mem_cons_self r rs)
    obtain ⟨tail, hexp⟩ := expandRow_singleton acols b r hnb
    rw [List.flatMap_cons, List.map_append, hexp]
    have hteam : cellAt (acols ++ mergeRC b) (r ++ tail) "Team"
        = cellAt acols r "Team" :=
      cellAt_append_left acols (mergeRC b) r tail "Team" hwr hT
    rw [ih (fun r2 hr2 => hw r2 (List.mem_cons_of_mem r hr2))]
    simp [hteam]

theorem teamCells_pdMergeOuter (a b : Table)
    (hw : WfT a) (hT : "Team" ∈ a.cols) (hnb : (teamCells b).Nodup) :
    teamCells (pdMergeOuter a b)
      = teamCells a ++ (b.rows.filter (fun rr =>
          !(a.rows.any (fun lr =>
            decide (cellAt b.cols rr "Team" = cellAt a.cols lr "Team"))))).map
          (fun rr => cellAt b.cols rr "Team") := by
  simp only [teamCells, pdMergeOuter, List.map_append]
  have hleft : (a.rows.flatMap (expandRow a.cols b)).map
      (fun r => cellAt (a.cols ++ mergeRC b) r "Team")
      = a.rows.map (fun r => cellAt a.cols r "Team") :=
    map_team_flatMap_expandRow a.cols b a.rows hT hnb hw
  have hright : (rightOnlyRows a b).map
      (fun r => cellAt (a.cols ++ mergeRC b) r "Team")
      = (b.rows.filter (fun rr =>
          !(a.rows.any (fun lr =>
            decide (cellAt b.cols rr "Team" = cellAt a.cols lr "Team"))))).map
          (fun rr => cellAt b.cols rr "Team") := by
    unfold rightOnlyRows
    rw [List.map_map]
    apply List.map_congr_left
    intro rr _
    simp only [Function.comp_apply]
    exact teamOf_rightOnly_shape a b rr hT
  rw [hleft, hright]

theorem team_not_mem_dupColsOf (m df : Table) : "Team" ∉ dupColsOf m df := by
  intro hmem
  have := (List.mem_filter.mp hmem).2
  simp at this

theorem teamCells_dropDup (m df : Table) :
    teamCells (dropCols df (dupColsOf m df)) = teamCells df :=
  teamCells_dropCols df (dupColsOf m df) (team_not_mem_dupColsOf m df)

theorem mergeStep_cols (m df : Table) :
    (mergeStep m df).cols = m.cols ++ mergeRC (dropCols df (dupColsOf m df)) := rfl

theorem mergeRC_dropDup_not_mem_left (m df : Table) (c : String)
    (hc : c ∈ mergeRC (dropCols df (dupColsOf m df))) : c ∉ m.cols := by
  intro hcm
  unfold mergeRC dropCols at hc
  simp only [List.mem_filter, decide_eq_true_eq] at hc
  apply hc.1.2
  unfold dupColsOf
  apply List.mem_filter.mpr
  exact ⟨hc.1.1, by simp [hcm, hc.2]⟩

theorem mergeRC_dropDup_nodup (m df : Table) (h : df.cols.Nodup) :
    (mergeRC (dropCols df (dupColsOf m df))).Nodup := by
  unfold mergeRC dropCols
  exact (h.filter _).filter _

theorem wfT_mergeStep (m df : Table) (hw : WfT m) : WfT (mergeStep m df) :=
  wfT_pdMergeOuter m _ hw

theorem team_mem_mergeStep_cols (m df : Table) (hT : "Team" ∈ m.cols) :
    "Team" ∈ (mergeStep m df).cols := by
  rw [mergeStep_cols]
  exact List.mem_append.mpr (Or.inl hT)

theorem mem_teamCells_mergeStep_left (m df : Table) (tc : Cell)
    (hw : WfT m) (hT : "Team" ∈ m.cols) (htc : tc ∈ teamCells m) :
    tc ∈ teamCells (mergeStep m df) :=
  mem_teamCells_pdMergeOuter_left m _ tc hw hT htc

theorem mem_teamCells_mergeStep_right (m df : Table) (tc : Cell)
    (hw : WfT m) (hT : "Team" ∈ m.cols) (htc : tc ∈ teamCells df) :
    tc ∈ teamCells (mergeStep m df) :=
  mem_teamCells_pdMergeOuter_right m _ tc hw hT
    ((teamCells_dropDup m df).symm ▸ htc)

theorem MInv_mergeStep (m df : Table) (hm : MInv m)
    (hdf : df.cols.Nodup ∧ (teamCells df).Nodup ∧
      ∀ tc ∈ teamCells df, isStrCell tc = true) :
    MInv (mergeStep m df) := by
  obtain ⟨hwm, hndm, hTm, hntm, hstm⟩ := hm
  obtain ⟨hndf, hntf, hstf⟩ := hdf
  have hteams' : (teamCells (dropCols df (dupColsOf m df))).Nodup := by
    rw [teamCells_dropDup]; exact hntf
  have heq := teamCells_pdMergeOuter m (dropCols df (dupColsOf m df)) hwm hTm hteams'
  refine ⟨wfT_mergeStep m df hwm, ?_, team_mem_mergeStep_cols m df hTm, ?_, ?_⟩
  · rw [mergeStep_cols]
    apply List.Nodup.append hndm (mergeRC_dropDup_nodup m df hndf)
    intro c hcm hcr
    exact mergeRC_dropDup_not_mem_left m df c hcr hcm
  · show (teamCells (mergeStep m df)).Nodup
    unfold mergeStep
    rw [heq]
    have hsub : ((dropCols df (dupColsOf m df)).rows.filter (fun rr =>
        !(m.rows.any (fun lr =>
          decide (cellAt (dropCols df (dupColsOf m df)).cols rr "Team"
            = cellAt m.cols lr "Team"))))).map
        (fun rr => cellAt (dropCols df (dupColsOf m df)).cols rr "Team")
        |>.Sublist (teamCells (dropCols df (dupColsOf m df))) := by
      unfold teamCells
      exact (List.filter_sublist _).map _
    apply List.Nodup.append hntm (hsub.nodup hteams')
    intro tc htcm htcr
    simp only [List.mem_map, List.mem_filter] at htcr
    obtain ⟨rr, ⟨hrr, hq⟩, hteam⟩ := htcr
    rw [Bool.not_eq_eq_eq_not, Bool.not_true, List.any_eq_false] at hq
    obtain ⟨lr, hlr, hlteam⟩ := (mem_teamCells m tc).mp htcm
    exact hq lr hlr (by simp [hteam, hlteam])
  · intro tc htc
    unfold mergeStep at htc
    rw [heq, List.mem_append] at htc
    rcases htc with htc | htc
    · exact hstm tc htc
    · simp only [List.mem_map, List.mem_filter] at htc
      obtain ⟨rr, ⟨hrr, _⟩, hteam⟩ := htc
      apply hstf tc
      rw [← teamCells_dropDup m df]
      exact (mem_teamCells _ tc).mpr ⟨rr, hrr, hteam⟩

theorem MInv_foldl (rest : List Table) (m : Table) (hm : MInv m)
    (hrest : ∀ t ∈ rest, t.cols.Nodup ∧ (teamCells t).Nodup ∧
      ∀ tc ∈ teamCells t, isStrCell tc = true) :
    MInv (rest.foldl mergeStep m) := by
  induction rest generalizing m with
  | nil => exact hm
  | cons df rest' ih =>
    rw [List.foldl_cons]
    exact ih (mergeStep m df)
      (MInv_mergeStep m df hm (hrest df (List.mem_cons_self df rest')))
      (fun t ht => hrest t (List.mem_cons_of_mem df ht))

theorem mem_teamCells_foldl (rest : List Table) (m : Table) (tc : Cell)
    (hw : WfT m) (hT : "Team" ∈ m.cols)
    (h : tc ∈ teamCells m ∨ ∃ t ∈ rest, tc ∈ teamCells t) :
    tc ∈ teamCells (rest.foldl mergeStep m) := by
  induction rest generalizing m with
  | nil =>
    rcases h with h | ⟨t, ht, _⟩
    · exact h
    · cases ht
  | cons df rest' ih =>
    rw [List.foldl_cons]
    apply ih (mergeStep m df) (wfT_mergeStep m df hw) (team_mem_mergeStep_cols m df hT)
    rcases h with h | ⟨t, ht, htc⟩
    · exact Or.inl (mem_teamCells_mergeStep_left m df tc hw hT h)
    · rcases List.mem_cons.mp ht with rfl | ht'
      · exact Or.inl (mem_teamCells_mergeStep_right m t tc hw hT htc)
      · exact Or.inr ⟨t, ht', htc⟩

theorem fillCell_of_ne_nan (c : Cell) (h : c ≠ Cell.nan) : fillCell c = c := by
  cases c with
  | nan => exact absurd rfl h
  | s v => rfl
  | n v => rfl

theorem wfT_team_foldl (rest : List Table) (m : Table)
    (hw : WfT m) (hT : "Team" ∈ m.cols) :
    WfT (rest.foldl mergeStep m) ∧ "Team" ∈ (rest.foldl mergeStep m).cols := by
  induction rest generalizing m with
  | nil => exact ⟨hw, hT⟩
  | cons df rest' ih =>
    rw [List.foldl_cons]
    exact ih (mergeStep m df) (wfT_mergeStep m df hw) (team_mem_mergeStep_cols m df hT)

theorem nan_not_mem_fillna0 (t : Table) :
    ∀ r ∈ (fillna0 t).rows, Cell.nan ∉ r := by
  intro r hr hc
  simp only [fillna0, List.mem_map] at hr
  obtain ⟨r0, _, rfl⟩ := hr
  obtain ⟨x, _, hx⟩ := List.mem_map.mp hc
  exact fillCell_ne_nan x hx

theorem mem_mergeRC_dropDup (m df : Table) (c : String)
    (hcd : c ∈ df.cols) (hcm : c ∉ m.cols) (hcT : c ≠ "Team") :
    c ∈ mergeRC (dropCols df (dupColsOf m df)) := by
  unfold mergeRC dropCols
  apply List.mem_filter.mpr
  refine ⟨List.mem_filter.mpr ⟨hcd, ?_⟩, by simp [hcT]⟩
  simp only [decide_eq_true_eq]
  intro hdup
  unfold dupColsOf at hdup
  exact hcm ((of_decide_eq_true (List.mem_filter.mp hdup).2)).1

theorem mergeMaster_single (A : Table) : mergeMaster [A] = fillna0 A := rfl

theorem mergeMaster_pair (A B : Table) :
    mergeMaster [A, B] = fillna0 (mergeStep A B) := rfl

theorem pdConcatNE_singleton (t : Table) (hw : WfT t) (hnd : t.cols.Nodup) :
    pdConcatNE [t] = t := by
  have hcols : unionCols [t] = t.cols := by
    unfold unionCols
    rw [List.flatMap_cons, List.flatMap_nil, List.append_nil]
    exact dedupFirst_eq_self t.cols hnd
  cases t with
  | mk cs rs =>
    simp only [pdConcatNE]
    rw [Table.mk.injEq]
    simp only [Table.cols] at hcols
    refine ⟨hcols, ?_⟩
    rw [List.flatMap_cons, List.flatMap_nil, List.append_nil, hcols]
    have : ∀ r ∈ rs, cs.map (fun c => cellAt cs r c) = r := by
      intro r hr
      exact map_cellAt_eq_self cs r (hw r hr) hnd
    calc rs.map (fun r => cs.map (fun c => cellAt cs r c))
        = rs.map (fun r => r) := List.map_congr_left this
      _ = rs := by simp

theorem length_rows_pdConcatNE (ts : List Table) :
    (pdConcatNE ts).rows.length = (ts.map (fun t => t.rows.length)).sum := by
  simp only [pdConcatNE, List.length_flatMap]
  congr 1
  apply List.map_congr_left
  intro t _
  simp [Function.comp]

theorem mem_rows_pdConcatNE (ts : List Table) (t : Table) (r : List Cell)
    (ht : t ∈ ts) (hr : r ∈ t.rows) :
    (unionCols ts).map (fun c => cellAt t.cols r c) ∈ (pdConcatNE ts).rows := by
  simp only [pdConcatNE, List.mem_flatMap]
  exact ⟨t, ht, List.mem_map.mpr ⟨r, hr, rfl⟩⟩

theorem collectPages_some (env : Env) (links : List String) (comb : Table)
    (h : collectPages env links = some comb) :
    ∃ d ds, links.filterMap (get_team_stats_data env) = d :: ds
      ∧ comb = pdConcatNE (d :: ds) := by
  unfold collectPages at h
  rcases hfm : links.filterMap (get_team_stats_data env) with _ | ⟨d, ds⟩
  · rw [hfm] at h; simp at h
  · rw [hfm] at h
    simp only [Option.some.injEq] at h
    exact ⟨d, ds, rfl, h.symm⟩

theorem collectCategory_some_some (env : Env) (id : String) (t : Table)
    (h : collectCategory env id = some (some t)) :
    ∃ soup comb, env.fetch (statTeamUrl id) = some soup
      ∧ collectPages env (categoryLinks soup id) = some comb
      ∧ "Team" ∈ comb.cols ∧ t = astypeTeamStr comb := by
  unfold collectCategory at h
  split at h
  · simp at h
  · rename_i soup hf
    split at h
    · simp at h
    · rename_i comb hcp
      by_cases hTm : "Team" ∈ comb.cols
      · rw [if_pos hTm] at h
        simp only [Option.some.injEq] at h
        exact ⟨soup, comb, hf, hcp, hTm, h.symm⟩
      · rw [if_neg hTm] at h
        simp at h

theorem categoryLinks_count (soup : Markup) (id : String) :
    (categoryLinks soup id).count (statTeamUrl id) = 1 := by
  unfold categoryLinks
  have hnd : (getSubsequentLinksUpd soup (statTeamUrl id ++ "/")).Nodup :=
    dedupFirst_nodup _
  by_cases hmem : statTeamUrl id ∈ getSubsequentLinksUpd soup (statTeamUrl id ++ "/")
  · rw [if_pos hmem]
    exact List.count_eq_one_of_mem hnd hmem
  · rw [if_neg hmem]
    rw [List.count_cons_self]
    rw [List.count_eq_zero.mpr hmem]

/-
Claim theorems.
-/

/-- C1: when a later category contributes a column name already in the
master (other than Team), the later column is dropped before merging,
so the master value of that column for a shared team equals the
earliest-processed category value, and swapping the two categories
makes the other one win.  Stated for two category tables A and B that
share the non-Team column c and both hold a non-NaN value for team k in
c: merging in the order A then B yields the A value, merging B then A
yields the B value. -/
theorem first_seen_wins_collision (A B : Table) (c k : String) (v w : Cell)
    (hwA : WfT A) (hwB : WfT B) (hTA : "Team" ∈ A.cols) (hTB : "Team" ∈ B.cols)
    (hcA : c ∈ A.cols) (hcB : c ∈ B.cols) (hcT : c ≠ "Team")
    (hvA : getVal A k c = some v) (hv : v ≠ Cell.nan)
    (hwB2 : getVal B k c = some w) (hw : w ≠ Cell.nan) :
    getVal (mergeMaster [A, B]) k c = some v
      ∧ getVal (mergeMaster [B, A]) k c = some w := by
  constructor
  · rw [mergeMaster_pair,
      getVal_fillna0 (mergeStep A B) k c (wfT_mergeStep A B hwA)
        (team_mem_mergeStep_cols A B hTA)
        (by rw [mergeStep_cols]; exact List.mem_append.mpr (Or.inl hcA)),
      show mergeStep A B = pdMergeOuter A (dropCols B (dupColsOf A B)) from rfl,
      getVal_pdMergeOuter_left A (dropCols B (dupColsOf A B)) k c v hwA hTA hcA hvA,
      Option.map_some', fillCell_of_ne_nan v hv]
  · rw [mergeMaster_pair,
      getVal_fillna0 (mergeStep B A) k c (wfT_mergeStep B A hwB)
        (team_mem_mergeStep_cols B A hTB)
        (by rw [mergeStep_cols]; exact List.mem_append.mpr (Or.inl hcB)),
      show mergeStep B A = pdMergeOuter B (dropCols A (dupColsOf B A)) from rfl,
      getVal_pdMergeOuter_left B (dropCols A (dupColsOf B A)) k c w hwB hTB hcB hwB2,
      Option.map_some', fillCell_of_ne_nan w hw]

/-- Witness for C1 at the concrete tables: with both categories
claiming the Pts column for Duke, order [A, B] keeps 80 and order
[B, A] keeps 99. -/
theorem first_seen_wins_collision_witness :
    getVal (mergeMaster [tblPtsA, tblPtsB]) "Duke" "Pts" = some (Cell.n 80)
      ∧ getVal (mergeMaster [tblPtsB, tblPtsA]) "Duke" "Pts" = some (Cell.n 99) :=
  first_seen_wins_collision tblPtsA tblPtsB "Pts" "Duke" (Cell.n 80) (Cell.n 99)
    (by decide) (by decide) (by decide) (by decide) (by decide) (by decide)
    (by decide) (by decide) (by decide) (by decide) (by decide)

/-- C7: merge idempotence over prefixes.  For a team k present in the
merge of [A] alone (hence in both merge results, since merging
preserves every left team), any column c contributed by A has the same
value in the merge of [A] alone and in the merge of [A, B]. -/
theorem merge_prefix_idempotent (A B : Table) (k c : String)
    (hwA : WfT A) (hTA : "Team" ∈ A.cols) (hcA : c ∈ A.cols)
    (hk : (getVal A k c).isSome) :
    getVal (mergeMaster [A, B]) k c = getVal (mergeMaster [A]) k c := by
  obtain ⟨v, hv⟩ := Option.isSome_iff_exists.mp hk
  rw [mergeMaster_pair, mergeMaster_single,
    getVal_fillna0 (mergeStep A B) k c (wfT_mergeStep A B hwA)
      (team_mem_mergeStep_cols A B hTA)
      (by rw [mergeStep_cols]; exact List.mem_append.mpr (Or.inl hcA)),
    getVal_fillna0 A k c hwA hTA hcA,
    show mergeStep A B = pdMergeOuter A (dropCols B (dupColsOf A B)) from rfl,
    getVal_pdMergeOuter_left A (dropCols B (dupColsOf A B)) k c v hwA hTA hcA hv, hv]

/-- Witness for C7 at the concrete tables of the end-to-end scenario:
the Pts value of Duke is the same whether Reb is merged in or not. -/
theorem merge_prefix_idempotent_witness :
    getVal (mergeMaster [tblPts, tblReb]) "Duke" "Pts"
      = getVal (mergeMaster [tblPts]) "Duke" "Pts" :=
  merge_prefix_idempotent tblPts tblReb "Duke" "Pts"
    (by decide) (by decide) (by decide) (by decide)

/-- C10: get_full_data never reads its urls parameter; the loop on line
58 of src/src/data_collection.py iterates the module-level all_stats
list, so any two argument values produce the same master table under
the same page contents. -/
theorem get_full_data_ignores_urls (env : Env) (urls1 urls2 : List String) :
    get_full_data env urls1 = get_full_data env urls2 := rfl

/-- C3: the merge is a full outer join on Team with NaN filled by zero:
the (filled) team cell of every row of every merged category table
appears among the master Team cells; no NaN survives in the master; and
for a column c contributed only by the second of two categories, a team
present only in the first category receives the integer zero in c. -/
theorem outer_join_complete_zero_fill (dfs : List Table) (A B : Table)
    (k c : String) (t : Table) (tc : Cell)
    (hw : ∀ u ∈ dfs, WfT u) (hT : ∀ u ∈ dfs, "Team" ∈ u.cols)
    (ht : t ∈ dfs) (htc : tc ∈ teamCells t)
    (hwA : WfT A) (hTA : "Team" ∈ A.cols) (hcB : c ∈ B.cols) (hcA : c ∉ A.cols)
    (hcT : c ≠ "Team") (hkA : Cell.s k ∈ teamCells A)
    (hkB : Cell.s k ∉ teamCells B) :
    fillCell tc ∈ teamCells (mergeMaster dfs)
      ∧ ((mergeMaster dfs).rows.all (fun r => !(r.elem Cell.nan))) = true
      ∧ getVal (mergeMaster [A, B]) k c = some (Cell.n 0) := by
  refine ⟨?_, ?_, ?_⟩
  · rcases dfs with _ | ⟨d, rest⟩
    · cases ht
    · have hwd : WfT d := hw d (List.mem_cons_self d rest)
      have hTd : "Team" ∈ d.cols := hT d (List.mem_cons_self d rest)
      have hfold := wfT_team_foldl rest d hwd hTd
      have hmem : tc ∈ teamCells (rest.foldl mergeStep d) := by
        apply mem_teamCells_foldl rest d tc hwd hTd
        rcases List.mem_cons.mp ht with rfl | ht'
        · exact Or.inl htc
        · exact Or.inr ⟨t, ht', htc⟩
      show fillCell tc ∈ teamCells (fillna0 (rest.foldl mergeStep d))
      rw [teamCells_fillna0 _ hfold.1 hfold.2]
      exact List.mem_map.mpr ⟨tc, hmem, rfl⟩
  · rcases dfs with _ | ⟨d, rest⟩
    · rfl
    · apply List.all_eq_true.mpr
      intro r hr
      have hnm : Cell.nan ∉ r := nan_not_mem_fillna0 (rest.foldl mergeStep d) r hr
      simp only [Bool.not_eq_true', ← Bool.not_eq_true]
      intro he
      exact hnm (List.elem_iff.mp he)
  · rw [mergeMaster_pair,
      getVal_fillna0 (mergeStep A B) k c (wfT_mergeStep A B hwA)
        (team_mem_mergeStep_cols A B hTA)
        (by rw [mergeStep_cols]
            exact List.mem_append.mpr (Or.inr (mem_mergeRC_dropDup A B c hcB hcA hcT))),
      show mergeStep A B = pdMergeOuter A (dropCols B (dupColsOf A B)) from rfl,
      getVal_pdMergeOuter_left_nan A (dropCols B (dupColsOf A B)) k c hwA hTA hcA
        (mem_mergeRC_dropDup A B c hcB hcA hcT) hkA
        (by rw [teamCells_dropDup A B]; exact hkB)]
    rfl

/-- Witness for C3 at the end-to-end scenario tables: Kansas, present
only in the rebounds category, appears in the master; the master holds
no NaN; and UNC, present only in the points category, gets zero
rebounds. -/
theorem outer_join_complete_zero_fill_witness :
    fillCell (Cell.s "Kansas") ∈ teamCells (mergeMaster [tblPts, tblReb])
      ∧ ((mergeMaster [tblPts, tblReb]).rows.all (fun r => !(r.elem Cell.nan))) = true
      ∧ getVal (mergeMaster [tblPts, tblReb]) "UNC" "Reb" = some (Cell.n 0) :=
  outer_join_complete_zero_fill [tblPts, tblReb] tblPts tblReb "UNC" "Reb"
    tblReb (Cell.s "Kansas") (by decide) (by decide) (by decide) (by decide)
    (by decide) (by decide) (by decide) (by decide) (by decide) (by decide)
    (by decide)

/-- C9 counterexample: the claim fails as stated.  The first category
table lists Duke on two rows; after merging with the rebounds table the
master also lists Duke on two rows, so the MasterTable does not satisfy
the no-two-rows-share-a-team invariant for every sequence of category
tables. -/
theorem master_invariants_cex :
    ¬ ((teamCells (mergeMaster [tblDupTeam, tblReb])).Nodup) := by decide

/-- C9 amended: when every category table is well formed with
duplicate-free columns containing Team and duplicate-free string-valued
Team cells — which the pipeline arranges via astype(str) but does not
enforce against duplicate team rows — the master has no two rows with
the same team and every column at most once. -/
theorem master_invariants (dfs : List Table)
    (h : ∀ u ∈ dfs, WfT u ∧ u.cols.Nodup ∧ "Team" ∈ u.cols
      ∧ (teamCells u).Nodup ∧ ∀ tc ∈ teamCells u, isStrCell tc = true) :
    (teamCells (mergeMaster dfs)).Nodup ∧ (mergeMaster dfs).cols.Nodup := by
  rcases dfs with _ | ⟨d, rest⟩
  · exact ⟨List.nodup_nil, List.nodup_nil⟩
  · obtain ⟨hwd, hnd, hTd, hntd, hstd⟩ := h d (List.mem_cons_self d rest)
    have hMinv : MInv (rest.foldl mergeStep d) := by
      apply MInv_foldl rest d ⟨hwd, hnd, hTd, hntd, hstd⟩
      intro u hu
      have hu' := h u (List.mem_cons_of_mem d hu)
      exact ⟨hu'.2.1, hu'.2.2.2.1, hu'.2.2.2.2⟩
    obtain ⟨hwf, hndc, hTf, hntf, hstf⟩ := hMinv
    constructor
    · show (teamCells (fillna0 (rest.foldl mergeStep d))).Nodup
      rw [teamCells_fillna0 _ hwf hTf]
      have hid : (teamCells (rest.foldl mergeStep d)).map fillCell
          = teamCells (rest.foldl mergeStep d) := by
        calc (teamCells (rest.foldl mergeStep d)).map fillCell
            = (teamCells (rest.foldl mergeStep d)).map (fun x => x) :=
              List.map_congr_left (fun tc htc => fillCell_of_isStr tc (hstf tc htc))
          _ = teamCells (rest.foldl mergeStep d) := by simp
      rw [hid]
      exact hntf
    · show (fillna0 (rest.foldl mergeStep d)).cols.Nodup
      exact hndc

/-- Witness for C9 at the end-to-end scenario tables, whose team cells
are duplicate-free strings. -/
theorem master_invariants_witness :
    (teamCells (mergeMaster [tblPts, tblReb])).Nodup
      ∧ (mergeMaster [tblPts, tblReb]).cols.Nodup :=
  master_invariants [tblPts, tblReb] (by decide)

/-- C2 counterexample: the claim fails as stated.  The legacy
get_subsequent_links returns the same absolute URL twice when the
markup repeats an anchor, so the discoverer output is not
duplicate-free; the caller get_df instead trims the last element of the
list. -/
theorem link_discoverer_dedup_cex :
    get_subsequent_links markDupLinks ncaaBase
        = [ncaaBase ++ "/stats/p2", ncaaBase ++ "/stats/p2"]
      ∧ ¬ ((get_subsequent_links markDupLinks ncaaBase).Nodup) := by decide

/-- C2 amended: the updated collector _get_subsequent_links satisfies
the claimed invariant: its output is duplicate-free, is a sublist of
the filtered hrefs (so first-seen order is preserved and nothing is
positionally trimmed), and keeps exactly the URLs of the filtered
list. -/
theorem upd_link_discoverer_nodup (soup : Markup) (base : String) :
    (getSubsequentLinksUpd soup base).Nodup
      ∧ List.Sublist (getSubsequentLinksUpd soup base) (rawStatLinks soup base)
      ∧ ∀ u, u ∈ getSubsequentLinksUpd soup base ↔ u ∈ rawStatLinks soup base :=
  ⟨dedupFirst_nodup _, dedupFirst_sublist _, fun u => mem_dedupFirst _ u⟩

/-- C4 counterexample: the claim fails as stated for the legacy
collector.  Page a of the category parses to a table, page b has no
table element; the claim says page b is skipped and the category still
returns the remaining data, but get_df propagates the exception and the
whole category aborts with no result. -/
theorem page_failure_aborts_category_cex :
    get_data envAbort (ncaaBase ++ "/stats/a") = some tblX
      ∧ get_data envAbort (ncaaBase ++ "/stats/b") = none
      ∧ get_df envAbort "start4" = none := by decide

/-- C4 amended: in the updated collector a page whose fetch or
extraction fails contributes nothing and never aborts the category:
removing a failing page from the link list does not change the result,
and the category yields nothing only when every page fails. -/
theorem failed_page_skipped (env : Env) (l1 l2 : List String) (u : String)
    (hfail : get_team_stats_data env u = none) :
    collectPages env (l1 ++ u :: l2) = collectPages env (l1 ++ l2)
      ∧ (collectPages env (l1 ++ l2) = none
          ↔ ((l1 ++ l2).all (fun x => (get_team_stats_data env x).isNone)) = true) := by
  constructor
  · have hstep : (l1 ++ u :: l2).filterMap (get_team_stats_data env)
        = (l1 ++ l2).filterMap (get_team_stats_data env) := by
      rw [List.filterMap_append, List.filterMap_append, List.filterMap_cons, hfail]
    unfold collectPages
    rw [hstep]
  · unfold collectPages
    constructor
    · intro h
      rcases hfm : (l1 ++ l2).filterMap (get_team_stats_data env) with _ | ⟨d, ds⟩
      · apply List.all_eq_true.mpr
        intro x hx
        rw [Option.isNone_iff_eq_none]
        exact List.filterMap_eq_nil_iff.mp hfm x hx
      · rw [hfm] at h
        exact absurd h (by simp)
    · intro h
      rw [List.filterMap_eq_nil_iff.mpr (fun x hx => by
        rw [← Option.isNone_iff_eq_none]
        exact List.all_eq_true.mp h x hx)]

/-- Witness for C4: page b of envAbort fails, page a succeeds; removing
page b leaves the category result unchanged, and the remaining page
list does not yield none. -/
theorem failed_page_skipped_witness :
    collectPages envAbort ([ncaaBase ++ "/stats/a"] ++ (ncaaBase ++ "/stats/b") :: [])
        = collectPages envAbort ([ncaaBase ++ "/stats/a"] ++ [])
      ∧ (collectPages envAbort ([ncaaBase ++ "/stats/a"] ++ []) = none
          ↔ (([ncaaBase ++ "/stats/a"] ++ ([] : List String)).all
              (fun x => (get_team_stats_data envAbort x).isNone)) = true) :=
  failed_page_skipped envAbort [ncaaBase ++ "/stats/a"] [] (ncaaBase ++ "/stats/b")
    (by decide)

/-- C5 counterexample: the claim fails as stated for the legacy
collector.  The start page of envNoLinks parses to a valid table and
its markup has no pagination links; the claim says the collector
returns that table as a single-page category, but get_df raises on
pd.concat of an empty list and returns nothing, never treating the
start page as data. -/
theorem single_page_category_cex :
    get_data envNoLinks "start5" = some tblY
      ∧ get_df envNoLinks "start5" = none := by decide

/-- C5 amended: in the updated collector the start url is processed
exactly once for every fetched markup (it is inserted at the front when
discovery omits it, and discovery output is duplicate-free); and when
the start markup yields no pagination links at all, the category
succeeds with exactly the start page table, Team column coerced to
strings. -/
theorem start_url_once_single_page (env : Env) (id : String)
    (soup soup2 : Markup) (t0 : Table)
    (hf : env.fetch (statTeamUrl id) = some soup)
    (hnl : getSubsequentLinksUpd soup (statTeamUrl id ++ "/") = [])
    (hpage : get_team_stats_data env (statTeamUrl id) = some t0)
    (hTm : "Team" ∈ t0.cols) (hnd : t0.cols.Nodup) (hw : WfT t0) :
    (categoryLinks soup2 id).count (statTeamUrl id) = 1
      ∧ collectCategory env id = some (some (astypeTeamStr t0)) := by
  refine ⟨categoryLinks_count soup2 id, ?_⟩
  have hlinks : categoryLinks soup id = [statTeamUrl id] := by
    unfold categoryLinks
    rw [hnl]
    simp
  have hcp : collectPages env (categoryLinks soup id) = some t0 := by
    rw [hlinks]
    unfold collectPages
    rw [show [statTeamUrl id].filterMap (get_team_stats_data env) = [t0] by
      simp [List.filterMap_cons, hpage]]
    show some (pdConcatNE [t0]) = some t0
    rw [pdConcatNE_singleton t0 hw hnd]
  simp only [collectCategory, hf]
  rw [hcp]
  simp [hTm]

/-- Witness for C5: in envSingle the start markup of category 1 has no
anchors and one table; the start url is counted once (also against a
markup that does link three pages) and the category returns the start
page table. -/
theorem start_url_once_single_page_witness :
    (categoryLinks soupThreeLinks "1").count (statTeamUrl "1") = 1
      ∧ collectCategory envSingle "1" = some (some (astypeTeamStr tblY)) :=
  start_url_once_single_page envSingle "1" soupSingle soupThreeLinks tblY
    (by decide) (by decide) (by decide) (by decide) (by decide) (by decide)

/-- C6 counterexample: the claim fails as stated.  The second page of
the category drifted from columns Team, Pts to Team, Reb; the claim
says its rows are dropped, leaving only the first page row, but
pd.concat keeps both rows, NaN-extending each over the union of the
column sets. -/
theorem schema_drift_rows_kept_cex :
    pageP2.cols ≠ pageP1.cols
      ∧ (pdConcatNE [pageP1, pageP2]).rows
          = [[Cell.s "A", Cell.n 1, Cell.nan], [Cell.s "B", Cell.nan, Cell.n 2]]
      ∧ ¬ ((pdConcatNE [pageP1, pageP2]).rows.length = pageP1.rows.length) := by
  decide

/-- C6 amended: the concatenated category table keeps the rows of every
successfully extracted page in discovery order, reindexed to the
first-seen union of the column sets; a row from a drifted page is
included with NaN in the columns its page lacks, and drift is not
fatal. -/
theorem concat_keeps_all_rows (ts : List Table) (t : Table) (r : List Cell)
    (c : String) (ht : t ∈ ts) (hr : r ∈ t.rows)
    (hcu : c ∈ unionCols ts) (hct : c ∉ t.cols) :
    (unionCols ts).map (fun c2 => cellAt t.cols r c2) ∈ (pdConcatNE ts).rows
      ∧ (pdConcatNE ts).rows.length = (ts.map (fun u => u.rows.length)).sum
      ∧ cellAt (unionCols ts) ((unionCols ts).map (fun c2 => cellAt t.cols r c2)) c
          = Cell.nan := by
  refine ⟨mem_rows_pdConcatNE ts t r ht hr, length_rows_pdConcatNE ts, ?_⟩
  rw [cellAt_map_self (unionCols ts) _ c hcu]
  exact cellAt_not_mem t.cols r c hct

/-- Witness for C6: the drifted page row of pageP2 appears in the
concatenation, reindexed over Team, Pts, Reb with NaN at Pts; the row
count is the sum over both pages. -/
theorem concat_keeps_all_rows_witness :
    (unionCols [pageP1, pageP2]).map
        (fun c2 => cellAt pageP2.cols [Cell.s "B", Cell.n 2] c2)
          ∈ (pdConcatNE [pageP1, pageP2]).rows
      ∧ (pdConcatNE [pageP1, pageP2]).rows.length
          = ([pageP1, pageP2].map (fun u => u.rows.length)).sum
      ∧ cellAt (unionCols [pageP1, pageP2])
          ((unionCols [pageP1, pageP2]).map
            (fun c2 => cellAt pageP2.cols [Cell.s "B", Cell.n 2] c2)) "Pts"
          = Cell.nan :=
  concat_keeps_all_rows [pageP1, pageP2] pageP2 [Cell.s "B", Cell.n 2] "Pts"
    (by decide) (by decide) (by decide) (by decide)

/-- C8 counterexample: the claim fails as stated.  The pipeline Team
normalization is astype(str) alone; a Team value with surrounding
whitespace is kept verbatim and is not trimmed. -/
theorem join_key_not_trimmed_cex :
    (astypeTeamStr tblSpace).rows = [[Cell.s " Duke"]]
      ∧ ¬ ((astypeTeamStr tblSpace).rows = [[Cell.s "Duke"]]) := by decide

/-- C8 amended: the same normalization — type coercion to string with
astype(str), without any whitespace trimming — is applied to the
combined table of every collected category, so every collected
category table has string-valued Team cells. -/
theorem join_key_astype_only (env : Env) (id : String) (t : Table)
    (h : collectCategory env id = some (some t)) :
    ((teamCells t).all isStrCell) = true := by
  obtain ⟨soup, comb, hf, hcp, hTm, hteq⟩ := collectCategory_some_some env id t h
  subst hteq
  apply List.all_eq_true.mpr
  intro tc htc
  have hwcomb : WfT comb := by
    obtain ⟨d, ds, hfm, hcomb⟩ := collectPages_some env (categoryLinks soup id) comb hcp
    rw [hcomb]
    exact wfT_pdConcatNE _
  rw [teamCells_astypeTeamStr comb hwcomb hTm] at htc
  obtain ⟨tc0, _, rfl⟩ := List.mem_map.mp htc
  exact cellToStr_isStr tc0

/-- Witness for C8: category 2 of envNum has a numeric Team cell; the
collected table carries the decimal string 5 as its Team value. -/
theorem join_key_astype_only_witness :
    ((teamCells ⟨["Team"], [[Cell.s "5"]]⟩).all isStrCell) = true :=
  join_key_astype_only envNum "2" ⟨["Team"], [[Cell.s "5"]]⟩ (by decide)
